import Mathlib

/-
Verification development for the VeriSynth platform.

Shallow embedding of the three core subsystems in Lean 4:
  * the MAKER voting engine (agents/core/maker.py),
  * the job orchestrator (orchestrator/agent.py),
  * the memory ingestion / hybrid retrieval core (agents/memory/main.enterprise.py).

Numeric conventions: Python ints are Nat/Int, floats that carry exact
decimal/rational values (progress weights, reciprocal-rank terms) are ℚ.
External capabilities (sampler, tokenizer, hash, embedder, JSON schema
validation) are parameters of the embedded functions: every theorem below
quantifies over them, so no behaviour is assumed of them beyond what the
Python code itself guarantees.
-/

namespace Maker

/-- Vote table of first_to_ahead_by_k: canonical-serialization string → count.
Python uses defaultdict(int); we embed it as an association list in insertion
order (absent key = count 0). -/
abbrev VoteTable := List (String × Nat)

/-- votes[s] with default 0 (defaultdict read / dict.get(s, 0)). -/
def lookupD (votes : VoteTable) (s : String) : Nat :=
  match votes.find? (fun p => p.1 == s) with
  | some p => p.2
  | none => 0

/-- votes[s] += 1 on a defaultdict: increment in place, or append a fresh
entry with count 1. -/
def bump (votes : VoteTable) (s : String) : VoteTable :=
  if votes.any (fun p => p.1 == s) then
    votes.map (fun p => if p.1 == s then (p.1, p.2 + 1) else p)
  else
    votes ++ [(s, 1)]

/-- max((votes[v] for v in votes if v != serialized), default=0). -/
def maxOthers (votes : VoteTable) (s : String) : Nat :=
  (votes.filter (fun p => p.1 != s)).foldl (fun m p => max m p.2) 0

/-- Python's `m in s` substring test, on character lists. -/
def occursInL (m : List Char) : List Char → Bool
  | [] => m.isPrefixOf []
  | c :: rest => m.isPrefixOf (c :: rest) || occursInL m rest

def occursIn (m s : String) : Bool :=
  occursInL m.data s.data

/-- The dynamic red-flag threshold of first_to_ahead_by_k: 1200 for
long-context/premium model hints, 750 otherwise. -/
def deriveMaxTokens (modelName : String) : Nat :=
  if ["o1", "claude-3", "grok", "sonnet", "opus", "haiku"].any
      (fun m => occursIn m modelName) then 1200 else 750

/-- The round loop of first_to_ahead_by_k (maker.py lines 62-91), embedded
with explicit state.  `sampler` is indexed by the 1-based round number to
model a (possibly round-dependent) deterministic sampler; `parse` returns
none on a red flag (RedFlagError); `ser` is the canonical serialization
(json.dumps with sorted keys).  The fuel argument counts the remaining
rounds of `for round_num in range(1, max_rounds + 1)`; exhausting it is the
RuntimeError path, embedded as `none`.  On success the result carries the
parsed value and the round in which it was returned. -/
def ftakGo {T : Type} (sampler : Nat → String) (parse : String → Option T)
    (ser : T → String) (maxTokens k : Nat) :
    Nat → Nat → VoteTable → Option String → Option (T × Nat)
  | 0, _, _, _ => none
  | fuel + 1, round, votes, best =>
    let raw := sampler round
    if raw.length > maxTokens then
      ftakGo sampler parse ser maxTokens k fuel (round + 1) votes best
    else
      match parse raw with
      | none => ftakGo sampler parse ser maxTokens k fuel (round + 1) votes best
      | some parsed =>
        let serialized := ser parsed
        let votes1 := bump votes serialized
        let currentCount := lookupD votes1 serialized
        -- maker.py line 83: `if best is None or current_count >= k + max(...)`
        if best.isNone || decide (currentCount ≥ k + maxOthers votes1 serialized) then
          some (parsed, round)
        else
          -- maker.py line 88: `if votes[serialized] > votes.get(best or "", 0)`
          let best1 :=
            if currentCount > lookupD votes1 (best.getD "") then some serialized
            else best
          ftakGo sampler parse ser maxTokens k fuel (round + 1) votes1 best1

/-- first_to_ahead_by_k (maker.py lines 39-91). `maxTokens = none` triggers
the dynamic threshold derived from the model hint. -/
def firstToAheadByK {T : Type} (modelName : String) (sampler : Nat → String)
    (parse : String → Option T) (ser : T → String) (k maxRounds : Nat)
    (maxTokens : Option Nat) : Option (T × Nat) :=
  let mt :=
    match maxTokens with
    | some v => v
    | none => deriveMaxTokens modelName
  ftakGo sampler parse ser mt k maxRounds 1 [] none

/-- The deterministic sampler of spec scenario 1: every round returns the
raw text consisting of an open brace, "v" in quotes, a colon, 1 and a close
brace. -/
def vSampler : Nat → String := fun _ => "\x7b\x22v\x22:1\x7d"

/-- json.loads followed by schema validation for the one-field object of
scenario 1; the parsed value is represented by its canonical serialization
(json.dumps with sorted keys inserts a space after the colon).  Any other
raw text red-flags. -/
def vParse : String → Option String := fun raw =>
  if raw = "\x7b\x22v\x22:1\x7d" then some "\x7b\x22v\x22: 1\x7d" else none

end Maker

/-- C1: the claim states first_to_ahead_by_k returns a parsed result in a
round only if its count c and the max count m of the rivals satisfy
c ≥ m + k, and that with k=3, maxRounds=40 and the deterministic sampler the
winner arrives after exactly 3 rounds.  The code violates this: on the very
first successful parse `best` is still None, so the `best is None or ...`
disjunction on line 83 short-circuits the ahead-by-k test and the function
returns in round 1 with count 1, even though 1 < 0 + 3.  This theorem
evaluates the embedded code at the spec's scenario-1 input and exhibits the
round-1 return. -/
theorem C1_first_parse_wins_round_one :
    Maker.firstToAheadByK "gpt-4o-mini" Maker.vSampler Maker.vParse id 3 40 none
      = some ("\x7b\x22v\x22: 1\x7d", 1) ∧ ¬ (1 ≥ 0 + 3) := by
  exact ⟨by decide, by decide⟩

namespace Orch

/-- Job status enum (orchestrator/agent.py lines 60-65). -/
inductive JobStatus
  | queued
  | running
  | succeeded
  | failed
  | cancelled
deriving DecidableEq, Repr

/-- Job type enum (orchestrator/agent.py lines 53-58). -/
inductive JobType
  | researchAndExport
  | dataPipeline
  | ragIngest
  | verification
  | custom
deriving DecidableEq, Repr

/-- The mutable per-job record held in the jobs collection, restricted to
the fields the orchestrator updates: status, progress, the logs array and
the optional result payload (of abstract type R). -/
structure Job (R : Type) where
  status : JobStatus
  progress : ℚ
  logs : List String
  result : Option R
deriving DecidableEq

/-- update_job_status (orchestrator/agent.py lines 324-349): overwrite
status and progress, append one log entry via ArrayUnion, and attach the
result payload only when one is passed (the `if result:` guard). -/
def updateJobStatus {R : Type} (j : Job R) (status : JobStatus) (progress : ℚ)
    (message : String) (result : Option R) : Job R :=
  { status := status
    progress := progress
    logs := j.logs ++ [message]
    result := match result with
      | some r => some r
      | none => j.result }

/-- cancel_job (orchestrator/agent.py lines 159-174): a bare field update
setting status to CANCELLED on the stored record.  It touches neither
progress, nor logs, nor result, and execute_job is not signalled. -/
def cancelJob {R : Type} (j : Job R) : Job R :=
  { j with status := JobStatus.cancelled }

/-- The job record as created by start_job (lines 116-124). -/
def initialJob {R : Type} : Job R :=
  { status := JobStatus.queued, progress := 0, logs := [], result := none }

/-- One update_job_status call as performed by the dispatcher. -/
structure UpdateEvt (R : Type) where
  status : JobStatus
  progress : ℚ
  message : String
  result : Option R

def applyUpdates {R : Type} (evts : List (UpdateEvt R)) (j : Job R) : Job R :=
  evts.foldl (fun j e => updateJobStatus j e.status e.progress e.message e.result) j

/-- The exact sequence of update_job_status calls execute_job performs for
each job type (orchestrator/agent.py lines 179-299), reconstructed from
execute_job and the four workflow functions.  `r` is the result payload of
the final SUCCEEDED update.  Crucially, execute_job never reads the stored
job record between stages — it receives only job_id and spec — so this
sequence is a constant of the spec: it is applied to whatever record is in
the store, whatever its current status.  The CUSTOM type raises ValueError
after the first update, producing the FAILED update with progress 0.0. -/
def workflowUpdates {R : Type} (ty : JobType) (verify : Bool) (r : R) :
    List (UpdateEvt R) :=
  ⟨JobStatus.running, 1/10, "Starting job execution", none⟩ ::
  match ty with
  | JobType.researchAndExport =>
      [⟨JobStatus.running, 2/10, "Researching sources", none⟩,
       ⟨JobStatus.running, 4/10, "Ingesting to memory", none⟩] ++
      (if verify then [⟨JobStatus.running, 6/10, "Verifying claims", none⟩] else []) ++
      [⟨JobStatus.running, 8/10, "Generating deliverables", none⟩,
       ⟨JobStatus.succeeded, 1, "Job completed successfully", some r⟩]
  | JobType.dataPipeline =>
      [⟨JobStatus.running, 3/10, "Retrieving data", none⟩,
       ⟨JobStatus.running, 6/10, "Transforming data", none⟩,
       ⟨JobStatus.running, 9/10, "Exporting", none⟩,
       ⟨JobStatus.succeeded, 1, "Job completed successfully", some r⟩]
  | JobType.ragIngest =>
      [⟨JobStatus.running, 5/10, "Ingesting documents", none⟩,
       ⟨JobStatus.succeeded, 1, "Job completed successfully", some r⟩]
  | JobType.verification =>
      [⟨JobStatus.running, 5/10, "Verifying claims", none⟩,
       ⟨JobStatus.succeeded, 1, "Job completed successfully", some r⟩]
  | JobType.custom =>
      [⟨JobStatus.failed, 0, "Job failed: Unsupported job type: custom", none⟩]

end Orch

/-- C2: the claim states that once cancel_job has set status=CANCELLED the
job stays terminal — the dispatcher observes the flag between stages and
bails out, progress freezes and no result is attached.  The code has no
such check: execute_job and the workflow functions call update_job_status
unconditionally, never reading the stored status.  Evaluating the embedded
store at the spec's cancellation scenario (cancel a research-and-export job
right after its second stage update): the cancelled record is overwritten
back to RUNNING by the next stage and ends SUCCEEDED with progress 1.0 and
a result payload attached. -/
theorem C2_cancel_is_overwritten_by_dispatcher :
    (Orch.cancelJob (Orch.applyUpdates
        ((Orch.workflowUpdates Orch.JobType.researchAndExport true ()).take 2)
        Orch.initialJob)).status = Orch.JobStatus.cancelled
    ∧
    (Orch.applyUpdates
        ((Orch.workflowUpdates Orch.JobType.researchAndExport true ()).drop 2)
        (Orch.cancelJob (Orch.applyUpdates
          ((Orch.workflowUpdates Orch.JobType.researchAndExport true ()).take 2)
          Orch.initialJob))).status = Orch.JobStatus.succeeded
    ∧
    (Orch.applyUpdates
        ((Orch.workflowUpdates Orch.JobType.researchAndExport true ()).drop 2)
        (Orch.cancelJob (Orch.applyUpdates
          ((Orch.workflowUpdates Orch.JobType.researchAndExport true ()).take 2)
          Orch.initialJob))).result = some ()
    ∧
    (Orch.applyUpdates
        ((Orch.workflowUpdates Orch.JobType.researchAndExport true ()).drop 2)
        (Orch.cancelJob (Orch.applyUpdates
          ((Orch.workflowUpdates Orch.JobType.researchAndExport true ()).take 2)
          Orch.initialJob))).progress = 1 := by
  refine ⟨rfl, rfl, rfl, ?_⟩
  norm_num [Orch.applyUpdates, Orch.workflowUpdates, Orch.updateJobStatus,
    Orch.cancelJob, Orch.initialJob]

/-- C7 counterexample: the claim states that no status update performed by
the orchestrator lowers the stored progress value.  The FAILED terminal
update in execute_job (line 208) passes progress 0.0 unconditionally: for a
CUSTOM job the dispatcher first writes RUNNING with progress 0.1 and then,
after the ValueError, FAILED with progress 0.0 — an update_job_status call
that lowers progress from 1/10 to 0. -/
theorem C7_failed_update_lowers_progress :
    (Orch.applyUpdates ((Orch.workflowUpdates Orch.JobType.custom true ()).take 1)
        Orch.initialJob).progress = 1/10
    ∧
    (Orch.applyUpdates (Orch.workflowUpdates Orch.JobType.custom true ())
        Orch.initialJob).progress = 0
    ∧ (0 : ℚ) < 1/10 := by
  refine ⟨?_, ?_, by norm_num⟩ <;>
    norm_num [Orch.applyUpdates, Orch.workflowUpdates, Orch.updateJobStatus,
      Orch.initialJob]

/-- C7 amended: every update_job_status call appends exactly one log entry,
leaving existing entries unchanged (logs are append-only), and within every
workflow's update sequence the non-FAILED updates have non-decreasing
progress (RUNNING stage weights are increasing and the SUCCEEDED update
sets 1.0); every FAILED update carries progress 0, which may lower the
stored value. -/
theorem C7_logs_append_only_and_nonterminal_progress_monotone :
    (∀ (j : Orch.Job Unit) st p m r,
      (Orch.updateJobStatus j st p m r).logs = j.logs ++ [m])
    ∧
    (∀ (ty : Orch.JobType) (verify : Bool),
      List.Chain' (· ≤ ·)
        (((Orch.workflowUpdates ty verify ()).filter
            (fun e => e.status ≠ Orch.JobStatus.failed)).map
          (fun e => e.progress)))
    ∧
    (∀ (ty : Orch.JobType) (verify : Bool),
      ∀ e ∈ Orch.workflowUpdates ty verify (),
        e.status = Orch.JobStatus.failed → e.progress = 0) := by
  refine ⟨fun j st p m r => rfl, ?_, ?_⟩
  · intro ty verify
    cases ty <;> cases verify <;>
      norm_num [Orch.workflowUpdates, List.filter, List.map, List.chain'_cons]
  · intro ty verify e he
    cases ty <;> cases verify <;>
      simp only [Orch.workflowUpdates, List.mem_cons, List.mem_append,
        List.mem_singleton, List.cons_append, List.nil_append,
        List.not_mem_nil, if_true, if_false] at he <;>
      rcases he with h | h | h | h | h | h | h <;> simp_all

namespace Memory

/-- The token-window loop of semantic_chunk (main.enterprise.py lines
169-191), reduced to the token-index spans it produces: each iteration with
start < N emits the span [start, min(start + maxT, N)) and advances start
to end - ov when end < N, to end otherwise.  The chunk record's token_count
is len(tokens[start:end]) = end - start and its text is the decode of that
token slice; both are determined by the span, so spans are the whole
state.  The fuel argument bounds the while loop; N + 1 iterations always
suffice when ov < maxT (proved below), matching the Python loop exactly. -/
def chunkGo (maxT ov N : ℕ) : ℕ → ℕ → List (ℕ × ℕ)
  | 0, _ => []
  | fuel + 1, start =>
    if start < N then
      let e := min (start + maxT) N
      (start, e) ::
        (if e < N then chunkGo maxT ov N fuel (e - ov) else chunkGo maxT ov N fuel e)
    else []

/-- semantic_chunk on a text of N tokens: the spans of its chunks. -/
def semanticChunkSpans (maxT ov N : ℕ) : List (ℕ × ℕ) :=
  chunkGo maxT ov N (N + 1) 0

theorem chunkGo_nil (maxT ov N fuel start : ℕ) (h : ¬ start < N) :
    chunkGo maxT ov N fuel start = [] := by
  cases fuel with
  | zero => rfl
  | succ fuel => simp [chunkGo, h]

/-- Every span is inside [0, N), starts no earlier than the loop variable,
is nonempty, and spans at most maxT tokens. -/
theorem chunkGo_spans_sound (maxT ov N : ℕ) (hov : ov < maxT) :
    ∀ fuel start, ∀ p ∈ chunkGo maxT ov N fuel start,
      start ≤ p.1 ∧ p.1 < p.2 ∧ p.2 ≤ N ∧ p.2 - p.1 ≤ maxT := by
  intro fuel
  induction fuel with
  | zero => intro start p hp; simp [chunkGo] at hp
  | succ fuel ih =>
    intro start p hp
    by_cases hs : start < N
    · simp only [chunkGo, hs, if_true, List.mem_cons] at hp
      rcases hp with hp | hp
      · subst hp
        refine ⟨le_refl _, ?_, ?_, ?_⟩ <;> simp <;> omega
      · by_cases he : min (start + maxT) N < N
        · rw [if_pos he] at hp
          have hmin : min (start + maxT) N = start + maxT := by omega
          rw [hmin] at hp
          have h2 := ih _ p hp
          exact ⟨by omega, h2.2⟩
        · rw [if_neg he] at hp
          have h2 := ih _ p hp
          have hge : start ≤ min (start + maxT) N := by omega
          exact ⟨le_trans hge h2.1, h2.2⟩
    · rw [chunkGo_nil maxT ov N _ _ hs] at hp
      simp at hp

/-- Cover: with enough fuel, every token index in [start, N) lies in some
produced span. -/
theorem chunkGo_covers (maxT ov N : ℕ) (hov : ov < maxT) :
    ∀ fuel start t, N ≤ start + fuel → start ≤ t → t < N →
      ∃ p ∈ chunkGo maxT ov N fuel start, p.1 ≤ t ∧ t < p.2 := by
  intro fuel
  induction fuel with
  | zero => intro start t hfuel hst htN; omega
  | succ fuel ih =>
    intro start t hfuel hst htN
    have hs : start < N := Nat.lt_of_le_of_lt hst htN
    by_cases hte : t < min (start + maxT) N
    · refine ⟨(start, min (start + maxT) N), ?_, hst, hte⟩
      simp [chunkGo, hs]
    · have hemin : min (start + maxT) N ≤ t := Nat.le_of_not_lt hte
      have heN : min (start + maxT) N < N := Nat.lt_of_le_of_lt hemin htN
      have heq : min (start + maxT) N = start + maxT := by
        rcases Nat.lt_or_ge (start + maxT) N with h | h
        · simp [Nat.min_eq_left (Nat.le_of_lt h)]
        · omega
      have hnext : N ≤ (min (start + maxT) N - ov) + fuel := by omega
      have hnt : min (start + maxT) N - ov ≤ t := by omega
      obtain ⟨p, hp, h1, h2⟩ := ih (min (start + maxT) N - ov) t hnext hnt htN
      refine ⟨p, ?_, h1, h2⟩
      simp [chunkGo, hs, heN]
      exact Or.inr hp

/-- Adjacency: every adjacent pair of spans overlaps by exactly ov token
indices: the successor starts exactly ov tokens before its predecessor
ends, and ends no earlier. -/
theorem chunkGo_chain (maxT ov N : ℕ) (hov : ov < maxT) :
    ∀ fuel start,
      List.Chain' (fun a b : ℕ × ℕ => b.1 + ov = a.2 ∧ a.2 ≤ b.2)
        (chunkGo maxT ov N fuel start) := by
  intro fuel
  induction fuel with
  | zero => intro start; simp [chunkGo]
  | succ fuel ih =>
    intro start
    by_cases hs : start < N
    · simp only [chunkGo, hs, if_true]
      by_cases he : min (start + maxT) N < N
      · have heq : min (start + maxT) N = start + maxT := by
          rcases Nat.lt_or_ge (start + maxT) N with h | h
          · simp [Nat.min_eq_left (Nat.le_of_lt h)]
          · omega
        simp only [he, if_true]
        rw [List.chain'_cons']
        refine ⟨?_, ih _⟩
        intro b hb
        cases fuel with
        | zero => simp [chunkGo] at hb
        | succ fuel =>
          by_cases hb2 : min (start + maxT) N - ov < N
          · simp only [chunkGo, hb2, if_true, List.head?_cons, Option.mem_def,
              Option.some.injEq] at hb
            subst hb
            constructor
            · omega
            · have : min (start + maxT) N ≤ min (start + maxT) N - ov + maxT := by omega
              exact le_min (by omega) (Nat.le_of_lt he)
          · rw [chunkGo_nil maxT ov N _ _ hb2] at hb
            simp at hb
      · simp only [he, if_false]
        rw [chunkGo_nil maxT ov N fuel _ (by omega), List.chain'_cons']
        exact ⟨by simp, List.chain'_nil⟩
    · rw [chunkGo_nil maxT ov N _ _ hs]
      exact List.chain'_nil

end Memory

/-- C5: for every text whose token stream has N tokens, the chunks produced
by token-aware semantic_chunk with maxTokens=700 and overlapTokens=140 form
a contiguous cover of the token range [0, N): every token index below N
lies in some chunk span, every span is a nonempty sub-range of [0, N),
every chunk's token_count = endToken - startToken is at most 700, and each
adjacent pair of chunks overlaps in exactly 140 token indices (the claim
allows the final pair to differ, but in fact every adjacent pair overlaps
exactly: the successor starts 140 tokens before its predecessor ends and
ends no earlier). -/
theorem C5_token_chunk_cover (N : ℕ) :
    (∀ t, t < N →
      ∃ p ∈ Memory.semanticChunkSpans 700 140 N, p.1 ≤ t ∧ t < p.2)
    ∧ (∀ p ∈ Memory.semanticChunkSpans 700 140 N,
        p.1 < p.2 ∧ p.2 ≤ N ∧ p.2 - p.1 ≤ 700)
    ∧ List.Chain' (fun a b : ℕ × ℕ => b.1 + 140 = a.2 ∧ a.2 ≤ b.2)
        (Memory.semanticChunkSpans 700 140 N) := by
  refine ⟨?_, ?_, Memory.chunkGo_chain 700 140 N (by norm_num) (N + 1) 0⟩
  · intro t ht
    exact Memory.chunkGo_covers 700 140 N (by norm_num) (N + 1) 0 t (by omega)
      (Nat.zero_le t) ht
  · intro p hp
    exact (Memory.chunkGo_spans_sound 700 140 N (by norm_num) (N + 1) 0 p hp).2

/-- C5 witness: at N = 1500 tokens, token index 900 (which satisfies the
hypothesis 900 < 1500) is covered by a chunk span. -/
theorem C5_token_chunk_cover_witness :
    900 < 1500 ∧
      ∃ p ∈ Memory.semanticChunkSpans 700 140 1500, p.1 ≤ 900 ∧ 900 < p.2 :=
  ⟨by decide, (C5_token_chunk_cover 1500).1 900 (by decide)⟩

namespace Memory

/-- A stored document record in the memory_docs collection, restricted to
the fields the ingest, search and delete paths read or write (drive docs
also carry revision_id, drive_link and timestamps; local docs omit
mime_type — both irrelevant to the claims below and elided). -/
structure DocRec where
  file_id : String
  file_name : String
  mime_type : Option String
  content_hash : String
  modified_at : Option String
  parent_folder : String
  source : String
  deleted : Bool
deriving DecidableEq, Repr

/-- A stored chunk record in the chunks collection (embedding is None when
ingestion ran without credentials). -/
structure ChunkRec where
  document_id : String
  chunk_index : ℕ
  text : String
  embedding : Option (List ℚ)
deriving DecidableEq, Repr

/-- The persistent Firestore state the memory agent manipulates: the
memory_docs collection (keyed by document id), the chunks collection (auto
ids), and the memory_hashes dedupe index (content_hash → file_id). -/
structure Store where
  memory_docs : List (String × DocRec)
  chunks : List (String × ChunkRec)
  memory_hashes : List (String × String)
deriving DecidableEq, Repr

/-- document(key).set(rec): keyed upsert preserving collection order. -/
def setKeyed {α : Type} (coll : List (String × α)) (key : String) (v : α) :
    List (String × α) :=
  if coll.any (fun p => p.1 == key) then
    coll.map (fun p => if p.1 == key then (p.1, v) else p)
  else
    coll ++ [(key, v)]

/-- document(key).get(): first entry under the key. -/
def lookupKeyed {α : Type} (coll : List (String × α)) (key : String) : Option α :=
  (coll.find? (fun p => p.1 == key)).map (fun p => p.2)

/-- Python truthiness of the `if emb:` guard in vector_search (line 974):
None and the empty list are falsy, every nonempty list — including an
all-zero vector — is truthy. -/
def truthyEmb (emb : Option (List ℚ)) : Bool :=
  match emb with
  | some l => !l.isEmpty
  | none => false

/-- A chunk-level search result as built by vector_search / bm25_search:
the chunk's Firestore id, its per-arm score, text, document id and index. -/
structure Candidate where
  id : String
  score : ℚ
  text : String
  document_id : String
  chunk_index : ℕ
deriving DecidableEq, Repr

/-- Stable insertion into a descending-by-key list: the new element goes
after every strictly greater key and before equal ones that were inserted
later, reproducing the stability of Python's sorted(..., reverse=True). -/
def insertDescBy {α : Type} (key : α → ℚ) (x : α) : List α → List α
  | [] => [x]
  | y :: ys => if key y > key x then y :: insertDescBy key x ys else x :: y :: ys

def sortDescBy {α : Type} (key : α → ℚ) : List α → List α
  | [] => []
  | x :: xs => insertDescBy key x (sortDescBy key xs)

/-- The metadata-filter dict built by the /search endpoint (lines
1029-1040): a key is present exactly when the request supplies a truthy
value. -/
structure Filters where
  folder_ids : Option (List String)
  mime_types : Option (List String)
  date_from : Option String
  date_to : Option String
  version_hash : Option String
deriving DecidableEq, Repr

/-- vector_search (main.enterprise.py lines 950-988).  The query embedding
and the numpy cosine arithmetic are external floating point; the value of
the scoring expression on line 977 is abstracted as `score`, a function of
the chunk embedding (the query embedding is fixed per call).  Everything
structural is the code's: the filters argument is received but never
applied — the FEATURE #10 block on lines 969-971 is `pass` — every chunk
whose stored embedding is truthy is scored, results are sorted by score
descending (stably) and truncated to top_k. -/
def vector_search (score : List ℚ → ℚ) (chunks : List (String × ChunkRec))
    (topK : ℕ) (filters : Option Filters) : List Candidate :=
  let results := chunks.filterMap (fun p =>
    match p.2.embedding with
    | some emb =>
      if emb.isEmpty then none
      else some { id := p.1, score := score emb, text := p.2.text,
                  document_id := p.2.document_id, chunk_index := p.2.chunk_index }
    | none => none)
  (sortDescBy (fun c => c.score) results).take topK

/-- Python str.count: non-overlapping occurrences of a nonempty pattern. -/
def countOccs (pat : List Char) : List Char → ℕ
  | [] => 0
  | c :: rest =>
    if h : pat ≠ [] ∧ pat.isPrefixOf (c :: rest) then
      1 + countOccs pat ((c :: rest).drop pat.length)
    else
      countOccs pat rest
termination_by l => l.length
decreasing_by
  · simp only [List.length_drop, List.length_cons]
    have : pat.length ≠ 0 := fun hl => h.1 (List.eq_nil_of_length_eq_zero hl)
    omega
  · simp

/-- Python str.split() with no argument: split on whitespace runs,
discarding empty fields. -/
def splitWsGo (acc : List Char) : List Char → List (List Char)
  | [] => if acc.isEmpty then [] else [acc.reverse]
  | c :: rest =>
    if c.isWhitespace then
      if acc.isEmpty then splitWsGo [] rest else acc.reverse :: splitWsGo [] rest
    else splitWsGo (c :: acc) rest

def splitWs (l : List Char) : List (List Char) := splitWsGo [] l

/-- bm25_search (lines 917-948): lowercase the query, split into terms,
score each chunk by the sum of term-occurrence counts in its lowercased
text, keep the chunks with positive score, sort descending, truncate. -/
def bm25_search (query : String) (chunks : List (String × ChunkRec))
    (topK : ℕ) : List Candidate :=
  let queryTerms := splitWs (query.data.map Char.toLower)
  let results := chunks.filterMap (fun p =>
    let text := p.2.text.data.map Char.toLower
    let sc : ℕ := (queryTerms.map (fun term => countOccs term text)).sum
    if sc > 0 then
      some { id := p.1, score := (sc : ℚ), text := p.2.text,
             document_id := p.2.document_id, chunk_index := p.2.chunk_index }
    else none)
  (sortDescBy (fun c => c.score) results).take topK

/-- scores[doc_id] = scores.get(doc_id, 0) + v on a Python dict: update in
place keeping insertion order, or append a fresh key. -/
def dictAdd (m : List (String × ℚ)) (key : String) (v : ℚ) :
    List (String × ℚ) :=
  if m.any (fun p => p.1 == key) then
    m.map (fun p => if p.1 == key then (p.1, p.2 + v) else p)
  else
    m ++ [(key, v)]

def dictLookupD (m : List (String × ℚ)) (key : String) : ℚ :=
  match m.find? (fun p => p.1 == key) with
  | some p => p.2
  | none => 0

/-- The reciprocal-rank accumulation loop of hybrid_search (lines
1004-1010): for each arm result at 1-based rank r, add 1/(60 + r) to its
id's fused score. -/
def rrfGo (rank : ℕ) (scores : List (String × ℚ)) :
    List Candidate → List (String × ℚ)
  | [] => scores
  | r :: rs => rrfGo (rank + 1) (dictAdd scores r.id (1 / (60 + (rank : ℚ)))) rs

/-- The fused score table of hybrid_search: both arms accumulated in order
(vector first, then bm25), each with ranks starting at 1. -/
def hybridScores (vec bm : List Candidate) : List (String × ℚ) :=
  rrfGo 1 (rrfGo 1 [] vec) bm

/-- all_results = {r["id"]: r for r in vector_results + bm25_results}: the
last record with a given id wins. -/
def lookupLast (rs : List Candidate) (key : String) : Option Candidate :=
  rs.reverse.find? (fun r => r.id == key)

/-- The fusion step of hybrid_search (lines 1000-1017): sort the score
table descending by fused score (Python's stable sorted), truncate to
top_k, and map ids back to their records. -/
def hybridFuse (vec bm : List Candidate) (topK : ℕ) : List Candidate :=
  ((sortDescBy (fun p => p.2) (hybridScores vec bm)).take topK).filterMap
    (fun p => lookupLast (vec ++ bm) p.1)

/-- hybrid_search (lines 990-1017): each arm is asked for top_k * 2
results, then reciprocal-rank fusion picks the final top_k. -/
def hybrid_search (score : List ℚ → ℚ) (chunks : List (String × ChunkRec))
    (query : String) (topK : ℕ) (filters : Option Filters) : List Candidate :=
  hybridFuse (vector_search score chunks (topK * 2) filters)
    (bm25_search query chunks (topK * 2)) topK

/-- The body of a POST /search request (SearchRequest pydantic model). -/
structure SearchRequest where
  query : String
  folder_ids : List String
  mime_types : Option (List String)
  date_from : Option String
  date_to : Option String
  version_hash : Option String
  top_k : ℕ
  use_hybrid : Bool

/-- Lines 1030-1040: a filter key is added only when the request field is
truthy (a None, an empty list or an empty string contributes no key). -/
def buildFilters (req : SearchRequest) : Filters :=
  { folder_ids := if req.folder_ids.isEmpty then none else some req.folder_ids
    mime_types := match req.mime_types with
      | some [] => none
      | x => x
    date_from := match req.date_from with
      | some "" => none
      | x => x
    date_to := match req.date_to with
      | some "" => none
      | x => x
    version_hash := match req.version_hash with
      | some "" => none
      | x => x }

/-- An enriched search result (lines 1049-1071).  The code exposes the
document identity of the underlying chunk as provenance.file_id; the model
additionally keeps the candidate's document_id field (the key enrichment
looked up) so the claims can speak about which document a returned chunk
belongs to. -/
structure Enriched where
  text : String
  score : ℚ
  chunk_index : ℕ
  document_id : String
  prov_file_name : String
  prov_file_id : String
  prov_version_hash : String
  prov_source : String
deriving DecidableEq, Repr

/-- The enrichment/exclusion loop of /search (lines 1049-1071): look the
candidate's document up in memory_docs; drop the candidate when the
document is absent or soft-deleted; otherwise attach provenance. -/
def enrich (docs : List (String × DocRec)) (cands : List Candidate) :
    List Enriched :=
  cands.filterMap (fun r =>
    match lookupKeyed docs r.document_id with
    | some d =>
      if d.deleted then none
      else some { text := r.text, score := r.score, chunk_index := r.chunk_index,
                  document_id := r.document_id,
                  prov_file_name := d.file_name, prov_file_id := d.file_id,
                  prov_version_hash := d.content_hash, prov_source := d.source }
    | none => none)

/-- The /search endpoint (lines 1022-1078).  `enableHybrid` is the
ENABLE_HYBRID_SEARCH flag (default true). -/
def search (score : List ℚ → ℚ) (enableHybrid : Bool) (st : Store)
    (req : SearchRequest) : List Enriched :=
  let filters := buildFilters req
  let results :=
    if req.use_hybrid && enableHybrid then
      hybrid_search score st.chunks req.query req.top_k (some filters)
    else
      vector_search score st.chunks req.top_k (some filters)
  enrich st.memory_docs results

/-- The soft path of DELETE /doc (lines 1122-1130): set deleted=True on the
stored document record (chunks and the hash index are untouched). -/
def softDelete (st : Store) (documentId : String) : Store :=
  { st with memory_docs := st.memory_docs.map (fun p =>
      if p.1 == documentId then (p.1, { p.2 with deleted := true }) else p) }

end Memory

namespace Memory

theorem find?_softDeleteMap (l : List (String × DocRec)) (id : String) :
    List.find? (fun p => p.1 == id)
        (l.map (fun p =>
          if p.1 == id then (p.1, { p.2 with deleted := true }) else p))
      = (List.find? (fun p => p.1 == id) l).map
          (fun p => (p.1, { p.2 with deleted := true })) := by
  induction l with
  | nil => rfl
  | cons q rest ih =>
    by_cases h : q.1 = id
    · simp [List.find?_cons, h]
    · have hb : (q.1 == id) = false := by simpa using h
      simp only [List.map_cons, List.find?_cons, hb, Bool.false_eq_true,
        if_false]
      exact ih

theorem lookupKeyed_softDelete (st : Store) (id : String) :
    lookupKeyed (softDelete st id).memory_docs id
      = (lookupKeyed st.memory_docs id).map (fun d => { d with deleted := true }) := by
  show lookupKeyed (st.memory_docs.map _) id = _
  rw [lookupKeyed, lookupKeyed, find?_softDeleteMap]
  cases List.find? (fun p => p.1 == id) st.memory_docs <;> rfl

end Memory

/-- C4: immediately after delete(id, permanent=false) soft-deletes a
document, every search — any query, filters, top_k, hybrid flag, scoring
function and prior store contents — returns no chunk belonging to that
document: the enrichment loop of /search looks every candidate's document
up in memory_docs and drops candidates whose document is absent or carries
deleted=true, and softDelete has just set deleted=true on every record
stored under that id. -/
theorem C4_soft_deleted_doc_invisible_to_search (score : List ℚ → ℚ)
    (enableHybrid : Bool) (st : Memory.Store) (id : String)
    (req : Memory.SearchRequest) :
    ∀ r ∈ Memory.search score enableHybrid (Memory.softDelete st id) req,
      r.document_id ≠ id := by
  intro r hr hrid
  simp only [Memory.search, Memory.enrich] at hr
  obtain ⟨cand, hcand, hf⟩ := List.mem_filterMap.mp hr
  cases hl : Memory.lookupKeyed (Memory.softDelete st id).memory_docs
      cand.document_id with
  | none => rw [hl] at hf; simp at hf
  | some d =>
    rw [hl] at hf
    dsimp only at hf
    by_cases hd : d.deleted
    · simp [hd] at hf
    · rw [if_neg hd] at hf
      have hdoc : cand.document_id = id := by
        have := congrArg Memory.Enriched.document_id (Option.some.inj hf)
        simpa [hrid] using this
      rw [hdoc, Memory.lookupKeyed_softDelete] at hl
      cases hlook : Memory.lookupKeyed st.memory_docs id with
      | none => rw [hlook] at hl; simp at hl
      | some d0 =>
        rw [hlook] at hl
        have : d.deleted = true := by
          have := Option.some.inj hl
          rw [← this]
        exact hd this

namespace Memory

/-- C3 scenario: a single live drive document filed under folderB, with one
embedded chunk. -/
def c3Doc : DocRec :=
  { file_id := "doc1", file_name := "b.txt", mime_type := some "text/plain",
    content_hash := "hash1", modified_at := some "2026-01-01T00:00:00Z",
    parent_folder := "folderB", source := "drive", deleted := false }

def c3Chunk : ChunkRec :=
  { document_id := "doc1", chunk_index := 0, text := "hello world",
    embedding := some [1] }

def c3Store : Store :=
  { memory_docs := [("doc1", c3Doc)], chunks := [("chunk1", c3Chunk)],
    memory_hashes := [("hash1", "doc1")] }

/-- A search constrained to folderA only (folder_ids = ["folderA"]). -/
def c3Req : SearchRequest :=
  { query := "hello", folder_ids := ["folderA"], mime_types := none,
    date_from := none, date_to := none, version_hash := none,
    top_k := 20, use_hybrid := false }

end Memory

/-- C3: the claim states the supplied filters are applied as a predicate
pre-intersection over candidate documents, so every returned chunk belongs
to a document satisfying all supplied filters.  The code builds the filter
dict and threads it into vector_search, but the filter block there (lines
969-971) is a bare `pass`: no filter is ever applied.  Evidence: a search
restricted to folder_ids=["folderA"] over a store whose only document
lives in folderB still returns that document's chunk. -/
theorem C3_folder_filter_ignored :
    (Memory.buildFilters Memory.c3Req).folder_ids = some ["folderA"] ∧
    (Memory.search (fun _ => 0) true Memory.c3Store Memory.c3Req).map
        (fun r => r.document_id) = ["doc1"] ∧
    Memory.c3Doc.parent_folder ∉ ["folderA"] := by
  exact ⟨rfl, by decide, by decide⟩

namespace Memory

/-- Upserting a key makes it present. -/
theorem setKeyed_mem_key {α : Type} (coll : List (String × α)) (key : String)
    (v : α) : (setKeyed coll key v).any (fun p => p.1 == key) = true := by
  unfold setKeyed
  by_cases h : coll.any (fun p => p.1 == key)
  · rw [if_pos h]
    obtain ⟨p, hp, hpk⟩ := List.any_eq_true.mp h
    refine List.any_eq_true.mpr ⟨(p.1, v), ?_, hpk⟩
    have : (if p.1 == key then (p.1, v) else p) = (p.1, v) := by
      rw [if_pos hpk]
    exact this ▸ List.mem_map_of_mem _ hp
  · rw [if_neg h]
    simp [List.any_append]

/-- process_local_file (lines 637-709).  External capabilities are
parameters: `tokenize`/`decode` the tiktoken tokenizer, `hashFn` the
sha256 hex digest, `embedFn` the embed() batch call (used only when
credentials are configured, matching `if credentials`), `idSupply` the
Firestore auto-id generator for chunks.add (indexed by the size of the
chunk collection so fresh adds get fresh ids).  The function hashes the
content, consults the memory_hashes dedupe index and returns (st, 0)
unchanged on a hit; otherwise it chunks, embeds, writes the document
record, appends the chunk records and writes the hash-index entry,
returning the number of new chunks. -/
def processLocalFile (tokenize : String → List ℕ) (decode : List ℕ → String)
    (creds : Bool) (embedFn : List String → List (List ℚ))
    (hashFn : String → String) (idSupply : ℕ → String)
    (fileName parentDir mtimeIso content : String) (st : Store) : Store × ℕ :=
  let contentHash := hashFn content
  if st.memory_hashes.any (fun p => p.1 == contentHash) then
    (st, 0)
  else
    let toks := tokenize content
    let spans := semanticChunkSpans 700 140 toks.length
    let texts := spans.map (fun p => decode ((toks.drop p.1).take (p.2 - p.1)))
    let embeddings := if creds then embedFn texts else []
    let fileId := contentHash.take 16
    let doc : DocRec :=
      { file_id := fileId, file_name := fileName, mime_type := none,
        content_hash := contentHash, modified_at := some mtimeIso,
        parent_folder := parentDir, source := "local", deleted := false }
    let newChunks := texts.enum.map (fun q =>
      (idSupply (st.chunks.length + q.1),
       ({ document_id := fileId, chunk_index := q.1, text := q.2,
          embedding := if embeddings.isEmpty then none else embeddings[q.1]? }
        : ChunkRec)))
    ({ memory_docs := setKeyed st.memory_docs fileId doc
       chunks := st.chunks ++ newChunks
       memory_hashes := setKeyed st.memory_hashes contentHash fileId },
     texts.length)

end Memory

/-- C6: ingesting the same file content a second time is a no-op guarded by
the memory_hashes lookup on the content hash: whatever the first run did
(fresh ingestion or an already-deduped skip), the second run returns the
store unchanged and reports 0 new chunks, so the document and chunk
collections after the second run are identical to the state after the
first. -/
theorem C6_duplicate_ingest_noop (tokenize : String → List ℕ)
    (decode : List ℕ → String) (creds : Bool)
    (embedFn : List String → List (List ℚ)) (hashFn : String → String)
    (idSupply : ℕ → String) (fileName parentDir mtimeIso content : String)
    (st : Memory.Store) :
    Memory.processLocalFile tokenize decode creds embedFn hashFn idSupply
      fileName parentDir mtimeIso content
      (Memory.processLocalFile tokenize decode creds embedFn hashFn idSupply
        fileName parentDir mtimeIso content st).1
    = ((Memory.processLocalFile tokenize decode creds embedFn hashFn idSupply
        fileName parentDir mtimeIso content st).1, 0) := by
  by_cases h : st.memory_hashes.any (fun p => p.1 == hashFn content)
  · simp only [Memory.processLocalFile, h, if_true]
  · simp only [Memory.processLocalFile, h, Bool.false_eq_true, if_false,
      Memory.setKeyed_mem_key, if_true]

namespace Memory

/-- The reciprocal-rank term a single arm contributes to a key: 1/(60 + r)
where r is the key's 1-based rank in that arm's result list, 0 when the key
is absent. -/
def armTerm (rank : ℕ) : List Candidate → String → ℚ
  | [], _ => 0
  | r :: rest, key =>
    if r.id = key then 1 / (60 + (rank : ℚ)) else armTerm (rank + 1) rest key

theorem armTerm_nonneg (rank : ℕ) (rs : List Candidate) (key : String) :
    0 ≤ armTerm rank rs key := by
  induction rs generalizing rank with
  | nil => simp [armTerm]
  | cons r rest ih =>
    rw [armTerm]
    by_cases h : r.id = key
    · rw [if_pos h]
      have h60 : (0 : ℚ) < 60 + (rank : ℚ) := by positivity
      positivity
    · rw [if_neg h]; exact ih (rank + 1)

theorem armTerm_eq_zero_of_not_mem (rank : ℕ) (rs : List Candidate)
    (key : String) (h : key ∉ rs.map (fun c => c.id)) :
    armTerm rank rs key = 0 := by
  induction rs generalizing rank with
  | nil => rfl
  | cons r rest ih =>
    simp only [List.map_cons, List.mem_cons] at h
    push_neg at h
    rw [armTerm, if_neg (fun he => h.1 he.symm)]
    exact ih (rank + 1) h.2

theorem find?_dictAddMap (m : List (String × ℚ)) (k : String) (v : ℚ) :
    List.find? (fun p => p.1 == k)
        (m.map (fun p => if p.1 == k then (p.1, p.2 + v) else p))
      = (List.find? (fun p => p.1 == k) m).map (fun p => (p.1, p.2 + v)) := by
  induction m with
  | nil => rfl
  | cons q rest ih =>
    by_cases h : q.1 = k
    · simp [List.find?_cons, h]
    · have hb : (q.1 == k) = false := by simpa using h
      simp only [List.map_cons, List.find?_cons, hb, Bool.false_eq_true,
        if_false]
      exact ih

theorem find?_keyMap_other (m : List (String × ℚ)) (k : String) (v : ℚ)
    (k' : String) (h : k' ≠ k) :
    List.find? (fun p => p.1 == k')
        (m.map (fun p => if p.1 == k then (p.1, p.2 + v) else p))
      = List.find? (fun p => p.1 == k') m := by
  induction m with
  | nil => rfl
  | cons q rest ih =>
    by_cases hq : q.1 = k
    · have hb : (q.1 == k') = false := by
        simp only [beq_eq_false_iff_ne, ne_eq]
        exact fun he => h (by rw [← he]; exact hq)
      have key1 : ((if (q.1 == k) = true then (q.1, q.2 + v) else q).1 == k')
          = false := by
        split <;> exact hb
      simp only [List.map_cons, List.find?_cons, key1, hb, Bool.false_eq_true,
        if_false]
      exact ih
    · have hfq : (if (q.1 == k) = true then (q.1, q.2 + v) else q) = q := by
        have hb : (q.1 == k) = false := by simpa using hq
        simp [hb]
      simp only [List.map_cons, hfq, List.find?_cons]
      cases hqk : (q.1 == k') with
      | true => rfl
      | false => exact ih

theorem find?_append_single_none {α : Type} (p : α → Bool) (l l2 : List α)
    (h : l.find? p = none) : (l ++ l2).find? p = l2.find? p := by
  induction l with
  | nil => rfl
  | cons a rest ih =>
    rw [List.find?_cons] at h
    cases hpa : p a with
    | true => rw [hpa] at h; simp at h
    | false =>
      rw [hpa] at h
      simp only [List.cons_append, List.find?_cons, hpa]
      exact ih h

theorem dictLookupD_dictAdd_same (m : List (String × ℚ)) (k : String)
    (v : ℚ) : dictLookupD (dictAdd m k v) k = dictLookupD m k + v := by
  unfold dictAdd
  by_cases h : m.any (fun p => p.1 == k)
  · rw [if_pos h, dictLookupD, dictLookupD, find?_dictAddMap]
    cases hf : List.find? (fun p => p.1 == k) m with
    | none =>
      exfalso
      obtain ⟨p, hp, hpk⟩ := List.any_eq_true.mp h
      exact absurd hpk (by simpa using List.find?_eq_none.mp hf p hp)
    | some q => simp
  · rw [if_neg h, dictLookupD, dictLookupD]
    have hnone : List.find? (fun p => p.1 == k) m = none := by
      apply List.find?_eq_none.mpr
      intro p hp hpk
      exact h (List.any_eq_true.mpr ⟨p, hp, hpk⟩)
    rw [find?_append_single_none _ _ _ hnone, hnone]
    simp [List.find?_cons]

theorem dictLookupD_dictAdd_other (m : List (String × ℚ)) (k : String)
    (v : ℚ) (k' : String) (h : k' ≠ k) :
    dictLookupD (dictAdd m k v) k' = dictLookupD m k' := by
  unfold dictAdd
  by_cases hm : m.any (fun p => p.1 == k)
  · rw [if_pos hm, dictLookupD, dictLookupD, find?_keyMap_other _ _ _ _ h]
  · rw [if_neg hm, dictLookupD, dictLookupD]
    cases hf : List.find? (fun p => p.1 == k') m with
    | none =>
      rw [find?_append_single_none _ _ _ hf]
      have : ((k, v).1 == k') = false := by
        simp only [beq_eq_false_iff_ne, ne_eq]
        exact fun he => h he.symm
      simp [List.find?_cons, this]
    | some q =>
      have : (m ++ [(k, v)]).find? (fun p => p.1 == k') = some q := by
        rw [List.find?_append, hf]
        rfl
      rw [this]

/-- Accumulating one arm adds exactly its reciprocal-rank term to every
key, provided the arm's ids are distinct (as they are for a Firestore
stream). -/
theorem dictLookupD_rrfGo (rs : List Candidate) :
    ∀ (rank : ℕ) (scores : List (String × ℚ)) (key : String),
      (rs.map (fun c => c.id)).Nodup →
      dictLookupD (rrfGo rank scores rs) key
        = dictLookupD scores key + armTerm rank rs key := by
  induction rs with
  | nil => intro rank scores key _; simp [rrfGo, armTerm]
  | cons r rest ih =>
    intro rank scores key hnd
    simp only [List.map_cons, List.nodup_cons] at hnd
    rw [rrfGo, ih (rank + 1) _ key hnd.2, armTerm]
    by_cases hk : r.id = key
    · rw [if_pos hk, ← hk]
      rw [armTerm_eq_zero_of_not_mem (rank + 1) rest r.id hnd.1]
      rw [dictLookupD_dictAdd_same]
      ring
    · rw [if_neg hk]
      rw [dictLookupD_dictAdd_other _ _ _ _ (fun he => hk he.symm)]

end Memory

namespace Memory

theorem insertDescBy_perm {α : Type} (key : α → ℚ) (x : α) (l : List α) :
    List.Perm (insertDescBy key x l) (x :: l) := by
  induction l with
  | nil => exact List.Perm.refl _
  | cons y ys ih =>
    rw [insertDescBy]
    by_cases h : key y > key x
    · rw [if_pos h]
      exact (ih.cons y).trans (List.Perm.swap x y ys)
    · rw [if_neg h]

theorem sortDescBy_perm {α : Type} (key : α → ℚ) (l : List α) :
    List.Perm (sortDescBy key l) l := by
  induction l with
  | nil => exact List.Perm.refl _
  | cons x xs ih =>
    exact (insertDescBy_perm key x (sortDescBy key xs)).trans (ih.cons x)

theorem insertDescBy_pairwise {α : Type} (key : α → ℚ) (x : α) (l : List α)
    (h : List.Pairwise (fun a b => key b ≤ key a) l) :
    List.Pairwise (fun a b => key b ≤ key a) (insertDescBy key x l) := by
  induction l with
  | nil => simp [insertDescBy]
  | cons y ys ih =>
    rw [insertDescBy]
    rw [List.pairwise_cons] at h
    by_cases hyx : key y > key x
    · rw [if_pos hyx]
      rw [List.pairwise_cons]
      constructor
      · intro z hz
        rcases List.mem_cons.mp
            (((insertDescBy_perm key x ys).mem_iff).mp hz) with hz | hz
        · exact le_of_lt (hz ▸ hyx)
        · exact h.1 z hz
      · exact ih h.2
    · rw [if_neg hyx]
      rw [List.pairwise_cons]
      refine ⟨?_, List.pairwise_cons.mpr h⟩
      intro z hz
      rcases List.mem_cons.mp hz with hz | hz
      · exact hz ▸ le_of_not_lt hyx
      · exact le_trans (h.1 z hz) (le_of_not_lt hyx)

theorem sortDescBy_pairwise {α : Type} (key : α → ℚ) (l : List α) :
    List.Pairwise (fun a b => key b ≤ key a) (sortDescBy key l) := by
  induction l with
  | nil => simp [sortDescBy]
  | cons x xs ih => exact insertDescBy_pairwise key x _ ih

/-- The id column of a filterMap whose function preserves the key is a
sublist of the key column. -/
theorem filterMap_ids_sublist {β : Type} (f : (String × β) → Option Candidate)
    (hf : ∀ p c, f p = some c → c.id = p.1) (l : List (String × β)) :
    ((l.filterMap f).map (fun c => c.id)).Sublist (l.map (fun p => p.1)) := by
  induction l with
  | nil => simp
  | cons p rest ih =>
    rw [List.filterMap_cons]
    cases hfp : f p with
    | none =>
      rw [List.map_cons]
      exact ih.cons _
    | some c =>
      rw [List.map_cons, List.map_cons, hf p c hfp]
      exact ih.cons₂ _

/-- Sorting descending by score and truncating to top_k preserves
distinctness of the id column. -/
theorem sortTake_ids_nodup (res : List Candidate) (topK : ℕ)
    (h : (res.map (fun c => c.id)).Nodup) :
    (((sortDescBy (fun c => c.score) res).take topK).map
      (fun c => c.id)).Nodup := by
  have hperm := (sortDescBy_perm (fun c => c.score) res).map (fun c => c.id)
  have hnodup2 := hperm.nodup_iff.mpr h
  rw [List.map_take]
  exact hnodup2.sublist (List.take_sublist _ _)

theorem vector_search_ids_nodup (score : List ℚ → ℚ)
    (chunks : List (String × ChunkRec)) (topK : ℕ) (filters : Option Filters)
    (h : (chunks.map (fun p => p.1)).Nodup) :
    ((vector_search score chunks topK filters).map (fun c => c.id)).Nodup := by
  simp only [vector_search]
  apply sortTake_ids_nodup
  refine h.sublist (filterMap_ids_sublist _ ?_ chunks)
  intro p c hp
  split at hp
  · split at hp
    · simp at hp
    · exact (congrArg Candidate.id (Option.some.inj hp)).symm
  · simp at hp

theorem bm25_search_ids_nodup (query : String)
    (chunks : List (String × ChunkRec)) (topK : ℕ)
    (h : (chunks.map (fun p => p.1)).Nodup) :
    ((bm25_search query chunks topK).map (fun c => c.id)).Nodup := by
  simp only [bm25_search]
  apply sortTake_ids_nodup
  refine h.sublist (filterMap_ids_sublist _ ?_ chunks)
  intro p c hp
  split at hp
  · exact (congrArg Candidate.id (Option.some.inj hp)).symm
  · simp at hp

/-- The fusion step of hybrid_search, specified over arbitrary arm result
lists with distinct ids: the fused score of every key is the sum of the two
reciprocal-rank arm terms, a key absent from an arm receives 0 from it,
each arm term is a nonnegative lower bound of the fused score, and the
output is the top-k prefix of the score table sorted descending by fused
score, mapped back to arm records. -/
theorem hybridFuse_spec (vec bm : List Candidate) (topK : ℕ)
    (hv : (vec.map (fun c => c.id)).Nodup)
    (hb : (bm.map (fun c => c.id)).Nodup) :
    (∀ key : String,
      dictLookupD (hybridScores vec bm) key
        = armTerm 1 vec key + armTerm 1 bm key)
    ∧ (∀ key : String, key ∉ vec.map (fun c => c.id) → armTerm 1 vec key = 0)
    ∧ (∀ key : String, key ∉ bm.map (fun c => c.id) → armTerm 1 bm key = 0)
    ∧ (∀ key : String,
        0 ≤ armTerm 1 vec key ∧ 0 ≤ armTerm 1 bm key
        ∧ armTerm 1 vec key ≤ dictLookupD (hybridScores vec bm) key
        ∧ armTerm 1 bm key ≤ dictLookupD (hybridScores vec bm) key)
    ∧ List.Perm (sortDescBy (fun p => p.2) (hybridScores vec bm))
        (hybridScores vec bm)
    ∧ List.Pairwise (fun a b : String × ℚ => b.2 ≤ a.2)
        (sortDescBy (fun p => p.2) (hybridScores vec bm))
    ∧ hybridFuse vec bm topK
        = ((sortDescBy (fun p => p.2) (hybridScores vec bm)).take
            topK).filterMap (fun p => lookupLast (vec ++ bm) p.1) := by
  have hformula : ∀ key : String,
      dictLookupD (hybridScores vec bm) key
        = armTerm 1 vec key + armTerm 1 bm key := by
    intro key
    rw [hybridScores, dictLookupD_rrfGo bm 1 _ key hb,
      dictLookupD_rrfGo vec 1 [] key hv]
    have : dictLookupD [] key = 0 := rfl
    rw [this, zero_add]
  refine ⟨hformula,
    fun key hk => armTerm_eq_zero_of_not_mem 1 vec key hk,
    fun key hk => armTerm_eq_zero_of_not_mem 1 bm key hk,
    fun key => ⟨armTerm_nonneg 1 vec key, armTerm_nonneg 1 bm key, ?_, ?_⟩,
    sortDescBy_perm _ _, sortDescBy_pairwise _ _, rfl⟩
  · rw [hformula key]
    exact le_add_of_nonneg_right (armTerm_nonneg 1 bm key)
  · rw [hformula key]
    exact le_add_of_nonneg_left (armTerm_nonneg 1 vec key)

end Memory

/-- C8: in hybrid_search, each candidate's fused score is the sum over the
vector arm and the lexical arm of 1/(60 + rank) with 1-based ranks
(armTerm), a candidate missing from an arm receives 0 from that arm, both
arm terms are nonnegative so adding an arm's term never decreases a fused
score (each arm term is a lower bound of the fused score), and the
function returns the top-k prefix of the candidates ranked descending by
fused score.  The hypothesis — chunk ids are pairwise distinct — holds of
any Firestore collection stream; both arms inherit it. -/
theorem C8_hybrid_rrf_fusion (score : List ℚ → ℚ)
    (chunks : List (String × Memory.ChunkRec)) (query : String) (topK : ℕ)
    (filters : Option Memory.Filters)
    (hnd : (chunks.map (fun p => p.1)).Nodup) :
    (∀ key : String,
      Memory.dictLookupD
          (Memory.hybridScores
            (Memory.vector_search score chunks (topK * 2) filters)
            (Memory.bm25_search query chunks (topK * 2))) key
        = Memory.armTerm 1
            (Memory.vector_search score chunks (topK * 2) filters) key
          + Memory.armTerm 1 (Memory.bm25_search query chunks (topK * 2)) key)
    ∧ (∀ key : String,
        key ∉ (Memory.vector_search score chunks (topK * 2) filters).map
            (fun c => c.id) →
          Memory.armTerm 1
            (Memory.vector_search score chunks (topK * 2) filters) key = 0)
    ∧ (∀ key : String,
        key ∉ (Memory.bm25_search query chunks (topK * 2)).map
            (fun c => c.id) →
          Memory.armTerm 1 (Memory.bm25_search query chunks (topK * 2)) key
            = 0)
    ∧ (∀ key : String,
        0 ≤ Memory.armTerm 1
            (Memory.vector_search score chunks (topK * 2) filters) key
        ∧ 0 ≤ Memory.armTerm 1
            (Memory.bm25_search query chunks (topK * 2)) key
        ∧ Memory.armTerm 1
            (Memory.vector_search score chunks (topK * 2) filters) key
          ≤ Memory.dictLookupD
              (Memory.hybridScores
                (Memory.vector_search score chunks (topK * 2) filters)
                (Memory.bm25_search query chunks (topK * 2))) key
        ∧ Memory.armTerm 1 (Memory.bm25_search query chunks (topK * 2)) key
          ≤ Memory.dictLookupD
              (Memory.hybridScores
                (Memory.vector_search score chunks (topK * 2) filters)
                (Memory.bm25_search query chunks (topK * 2))) key)
    ∧ List.Perm
        (Memory.sortDescBy (fun p => p.2)
          (Memory.hybridScores
            (Memory.vector_search score chunks (topK * 2) filters)
            (Memory.bm25_search query chunks (topK * 2))))
        (Memory.hybridScores
          (Memory.vector_search score chunks (topK * 2) filters)
          (Memory.bm25_search query chunks (topK * 2)))
    ∧ List.Pairwise (fun a b : String × ℚ => b.2 ≤ a.2)
        (Memory.sortDescBy (fun p => p.2)
          (Memory.hybridScores
            (Memory.vector_search score chunks (topK * 2) filters)
            (Memory.bm25_search query chunks (topK * 2))))
    ∧ Memory.hybrid_search score chunks query topK filters
        = ((Memory.sortDescBy (fun p => p.2)
            (Memory.hybridScores
              (Memory.vector_search score chunks (topK * 2) filters)
              (Memory.bm25_search query chunks (topK * 2)))).take
            topK).filterMap
          (fun p => Memory.lookupLast
            (Memory.vector_search score chunks (topK * 2) filters
              ++ Memory.bm25_search query chunks (topK * 2)) p.1) :=
  Memory.hybridFuse_spec
    (Memory.vector_search score chunks (topK * 2) filters)
    (Memory.bm25_search query chunks (topK * 2)) topK
    (Memory.vector_search_ids_nodup score chunks (topK * 2) filters hnd)
    (Memory.bm25_search_ids_nodup query chunks (topK * 2) hnd)

namespace Memory

/-- C8 witness scenario: one chunk with an embedding whose text contains
the query term. -/
def c8Chunk : ChunkRec :=
  { document_id := "d1", chunk_index := 0, text := "alpha beta",
    embedding := some [1] }

def c8Chunks : List (String × ChunkRec) := [("c1", c8Chunk)]

end Memory

/-- C8 witness: the distinct-chunk-ids hypothesis holds of the concrete
one-chunk store, and the fused-score formula follows by applying the C8
theorem there. -/
theorem C8_hybrid_rrf_fusion_witness :
    ((Memory.c8Chunks.map (fun p => p.1)).Nodup)
    ∧ (∀ key : String,
      Memory.dictLookupD
          (Memory.hybridScores
            (Memory.vector_search (fun _ => 0) Memory.c8Chunks (1 * 2) none)
            (Memory.bm25_search "alpha" Memory.c8Chunks (1 * 2))) key
        = Memory.armTerm 1
            (Memory.vector_search (fun _ => 0) Memory.c8Chunks (1 * 2) none)
            key
          + Memory.armTerm 1
              (Memory.bm25_search "alpha" Memory.c8Chunks (1 * 2)) key) :=
  ⟨by decide,
   (C8_hybrid_rrf_fusion (fun _ => 0) Memory.c8Chunks "alpha" 1 none
     (by decide)).1⟩

namespace Orch

/-- The FAILED update the dispatcher performs for a CUSTOM job. -/
def c7FailEvt : UpdateEvt Unit :=
  ⟨JobStatus.failed, 0, "Job failed: Unsupported job type: custom", none⟩

end Orch

/-- C7 witness: the CUSTOM workflow's FAILED update satisfies the
hypotheses of the amended theorem's third conjunct, which then yields its
progress value 0. -/
theorem C7_logs_append_only_witness :
    (Orch.c7FailEvt ∈ Orch.workflowUpdates Orch.JobType.custom true ())
    ∧ Orch.c7FailEvt.status = Orch.JobStatus.failed
    ∧ Orch.c7FailEvt.progress = 0 := by
  have hmem : Orch.c7FailEvt ∈ Orch.workflowUpdates Orch.JobType.custom true () := by
    simp only [Orch.workflowUpdates]
    exact List.mem_cons_of_mem _ (List.mem_cons_self _ _)
  exact ⟨hmem, rfl,
    (C7_logs_append_only_and_nonterminal_progress_monotone).2.2
      Orch.JobType.custom true Orch.c7FailEvt hmem rfl⟩

namespace Memory

/-- C4 witness scenario: two documents — docDel (to be soft-deleted) and
docLive — with one embedded chunk under docLive. -/
def c4DelDoc : DocRec :=
  { file_id := "docDel", file_name := "del.txt", mime_type := none,
    content_hash := "hd", modified_at := none, parent_folder := "f",
    source := "local", deleted := false }

def c4LiveDoc : DocRec :=
  { file_id := "docLive", file_name := "live.txt", mime_type := none,
    content_hash := "hl", modified_at := none, parent_folder := "f",
    source := "local", deleted := false }

def c4Store : Store :=
  { memory_docs := [("docDel", c4DelDoc), ("docLive", c4LiveDoc)],
    chunks := [("cL", { document_id := "docLive", chunk_index := 0,
                        text := "t", embedding := some [1] })],
    memory_hashes := [] }

def c4Req : SearchRequest :=
  { query := "t", folder_ids := [], mime_types := none, date_from := none,
    date_to := none, version_hash := none, top_k := 5, use_hybrid := false }

/-- The one result the post-delete search returns: docLive's chunk. -/
def c4Result : Enriched :=
  { text := "t", score := 0, chunk_index := 0, document_id := "docLive",
    prov_file_name := "live.txt", prov_file_id := "docLive",
    prov_version_hash := "hl", prov_source := "local" }

end Memory

/-- C4 witness: after soft-deleting docDel, the concrete search returns
docLive's chunk (discharging the membership hypothesis), and the theorem
yields that its document is not the deleted one. -/
theorem C4_soft_deleted_doc_invisible_witness :
    (Memory.c4Result ∈ Memory.search (fun _ => 0) true
      (Memory.softDelete Memory.c4Store "docDel") Memory.c4Req)
    ∧ Memory.c4Result.document_id ≠ "docDel" :=
  ⟨by decide,
   C4_soft_deleted_doc_invisible_to_search (fun _ => 0) true Memory.c4Store
     "docDel" Memory.c4Req Memory.c4Result (by decide)⟩

namespace Memory

/-- Squared Euclidean norm.  np.linalg.norm(v) is the square root of this
value; the cosine denominator norm(q) * norm(e) on line 977 is nonzero
exactly when normSq q * normSq e is, so the model works with squares and
stays in ℚ. -/
def normSq (v : List ℚ) : ℚ := (v.map (fun x => x * x)).sum

/-- The square of the cosine-similarity denominator of vector_search line
977. -/
def cosineDenomSq (q e : List ℚ) : ℚ := normSq q * normSq e

/-- The fallback of embed (main.enterprise.py lines 256-276): when Vertex
AI is unavailable (line 260) or the embedding call raises (line 276), every
text receives the 768-dimensional zero vector. -/
def embedFallback (texts : List String) : List (List ℚ) :=
  texts.map (fun _ => List.replicate 768 0)

theorem normSq_nonneg (v : List ℚ) : 0 ≤ normSq v := by
  induction v with
  | nil => simp [normSq]
  | cons x xs ih =>
    rw [normSq, List.map_cons, List.sum_cons]
    have := mul_self_nonneg x
    rw [normSq] at ih
    positivity

theorem normSq_eq_zero_iff (v : List ℚ) :
    normSq v = 0 ↔ ∀ x ∈ v, x = 0 := by
  induction v with
  | nil => simp [normSq]
  | cons x xs ih =>
    rw [normSq, List.map_cons, List.sum_cons]
    have hx := mul_self_nonneg x
    have hxs : 0 ≤ (xs.map (fun x => x * x)).sum := normSq_nonneg xs
    rw [add_eq_zero_iff_of_nonneg hx hxs, mul_self_eq_zero]
    rw [normSq] at ih
    rw [ih]
    simp

theorem normSq_replicate_zero (n : ℕ) :
    normSq (List.replicate n 0) = 0 := by
  rw [normSq_eq_zero_iff]
  intro x hx
  exact List.eq_of_mem_replicate hx

theorem normSq_ne_zero_iff (v : List ℚ) :
    normSq v ≠ 0 ↔ ∃ x ∈ v, x ≠ 0 := by
  constructor
  · intro h
    by_contra hc
    push_neg at hc
    exact h ((normSq_eq_zero_iff v).mpr hc)
  · rintro ⟨x, hx, hx0⟩ h0
    exact hx0 ((normSq_eq_zero_iff v).mp h0 x hx)

end Memory

/-- C10 counterexample: the claim states the cosine denominator is nonzero
for every chunk embedding that reaches the scoring expression, including
embeddings produced by embed's fallback path.  The fallback produces
768-dimensional zero vectors; such a vector is a nonempty list, so it
passes the `if emb:` truthiness guard and reaches the scoring expression,
where both norms — and hence the denominator — are zero: with a fallback
query embedding and a stored fallback chunk embedding the denominator of
np.dot/(norm*norm) is 0 (numpy divides by zero).  The concrete store shows
the chunk is indeed scored and returned. -/
theorem C10_zero_denominator_counterexample :
    Memory.embedFallback ["q"] = [List.replicate 768 (0 : ℚ)]
    ∧ Memory.truthyEmb (some (List.replicate 768 (0 : ℚ))) = true
    ∧ Memory.cosineDenomSq (List.replicate 768 (0 : ℚ))
        (List.replicate 768 (0 : ℚ)) = 0
    ∧ (Memory.vector_search (fun _ => 0)
        [("c1", { document_id := "d1", chunk_index := 0, text := "t",
                  embedding := some (List.replicate 768 (0 : ℚ)) })]
        20 none).map (fun c => c.id) = ["c1"] := by
  refine ⟨rfl, rfl, ?_, by decide⟩
  rw [Memory.cosineDenomSq, Memory.normSq_replicate_zero, zero_mul]

/-- C10 amended: the cosine denominator is nonzero exactly when both the
query embedding and the chunk embedding have a nonzero coordinate; every
embedding produced by embed's fallback path is a zero vector that passes
the truthiness guard, has zero norm, and therefore zeroes the denominator
against every query embedding. -/
theorem C10_denominator_nonzero_iff :
    (∀ q e : List ℚ,
      Memory.cosineDenomSq q e ≠ 0 ↔
        ((∃ x ∈ q, x ≠ 0) ∧ (∃ x ∈ e, x ≠ 0)))
    ∧ (∀ (texts : List String) (v : List ℚ), v ∈ Memory.embedFallback texts →
        Memory.truthyEmb (some v) = true ∧ Memory.normSq v = 0
        ∧ ∀ q : List ℚ, Memory.cosineDenomSq q v = 0) := by
  constructor
  · intro q e
    rw [Memory.cosineDenomSq, mul_ne_zero_iff, Memory.normSq_ne_zero_iff,
      Memory.normSq_ne_zero_iff]
  · intro texts v hv
    obtain ⟨t, ht, hveq⟩ := List.mem_map.mp hv
    subst hveq
    refine ⟨rfl, Memory.normSq_replicate_zero 768, ?_⟩
    intro q
    rw [Memory.cosineDenomSq, Memory.normSq_replicate_zero, mul_zero]

/-- C10 amended witness: the fallback embedding of a one-text batch is a
member of embedFallback's output (discharging the membership hypothesis),
and the theorem yields its truthiness, zero norm and zero denominator. -/
theorem C10_denominator_nonzero_iff_witness :
    ((List.replicate 768 (0 : ℚ)) ∈ Memory.embedFallback ["q"])
    ∧ (Memory.truthyEmb (some (List.replicate 768 (0 : ℚ))) = true
       ∧ Memory.normSq (List.replicate 768 (0 : ℚ)) = 0
       ∧ ∀ q : List ℚ,
           Memory.cosineDenomSq q (List.replicate 768 (0 : ℚ)) = 0) :=
  ⟨by
    rw [show Memory.embedFallback ["q"] = [List.replicate 768 (0 : ℚ)] from
      rfl]
    exact List.mem_singleton.mpr rfl,
   C10_denominator_nonzero_iff.2 ["q"] (List.replicate 768 0)
     (by
      rw [show Memory.embedFallback ["q"] = [List.replicate 768 (0 : ℚ)] from
        rfl]
      exact List.mem_singleton.mpr rfl)⟩

namespace Maker

/-- The backward scan of strict_json_parser (maker.py lines 21-33),
processing the response right-to-left.  The argument list is the reversed
remaining input, so the head's position in the original string is the
length of the tail.  On a close brace with brace_count 0 the end marker is
set to position + 1; every close brace increments brace_count; an open
brace decrements it, and when the count reaches 0 with an end marker set
the span (start, end) is returned for parsing.  Falling off the left end is
the `raise ValueError` path, embedded as none. -/
def scanGo : List Char → Int → Option Nat → Option (Nat × Nat)
  | [], _, _ => none
  | c :: rest, bc, e =>
    if c = '\x7d' then
      scanGo rest (bc + 1) (if bc = 0 then some (rest.length + 1) else e)
    else if c = '\x7b' then
      if bc - 1 = 0 then
        match e with
        | some en => some (rest.length, en)
        | none => scanGo rest (bc - 1) none
      else scanGo rest (bc - 1) e
    else scanGo rest bc e

/-- The span strict_json_parser extracts: the first brace-balanced span met
when scanning from the end. -/
def scanLastJson (r : List Char) : Option (Nat × Nat) :=
  scanGo r.reverse 0 none

/-- strict_json_parser (maker.py lines 16-37).  `validate` is
json.loads followed by model.model_validate on the extracted slice; its
failure — like an absent span — raises RedFlagError, embedded as none.
The code parses only the first span the backward scan finds: a JSON or
schema failure there aborts the whole call (the exception leaves the
loop), it does not fall back to an earlier object. -/
def strictJsonParser {J : Type} (validate : List Char → Option J)
    (r : List Char) : Option J :=
  match scanLastJson r with
  | none => none
  | some (s, e) => validate ((r.drop s).take (e - s))

/-- Depth scan deciding whether a character list is one complete top-level
brace-delimited object: starts with an open brace, the depth stays positive
strictly inside, and returns to 0 exactly at the final close brace. -/
def balGo : ℕ → List Char → Bool
  | _, [] => false
  | d, c :: rest =>
    if c = '\x7d' then
      if d = 1 then rest.isEmpty else balGo (d - 1) rest
    else if c = '\x7b' then balGo (d + 1) rest
    else balGo d rest

def isBalancedObj : List Char → Bool
  | [] => false
  | c :: rest => (c == '\x7b') && balGo 1 rest

/-- Whether some contiguous substring of r is a complete top-level
brace-delimited object. -/
def hasTopLevelObject (r : List Char) : Bool :=
  (List.range (r.length + 1)).any (fun i =>
    (List.range (r.length + 1)).any (fun m =>
      isBalancedObj ((r.drop i).take m)))

/-- The response of the C9 counterexample: a complete object followed by
commentary that contains a stray close brace. -/
def c9Resp : List Char := "\x7b\x22v\x22: 1\x7d x\x7d".data

/-- A brace-free prefix of the scan input changes nothing: no branch of the
loop body fires on other characters. -/
theorem scanGo_braceFree (s : List Char)
    (hs : ∀ c ∈ s, c ≠ '\x7b' ∧ c ≠ '\x7d') :
    ∀ (l : List Char) (bc : Int) (e : Option Nat),
      scanGo (s ++ l) bc e = scanGo l bc e := by
  induction s with
  | nil => intro l bc e; rfl
  | cons c srest ih =>
    intro l bc e
    have hc := hs c (List.mem_cons_self _ _)
    rw [List.cons_append]
    show scanGo (c :: (srest ++ l)) bc e = _
    simp only [scanGo]
    rw [if_neg hc.2, if_neg hc.1]
    exact ih (fun c hc => hs c (List.mem_cons_of_mem _ hc)) l bc e

/-- Any span the scan returns is a nonempty range ending within the
original input (n bounds the lengths seen so far; the end marker, when
set, exceeds the remaining length and is bounded by n). -/
theorem scanGo_span_bounds :
    ∀ (l : List Char) (bc : Int) (e : Option Nat) (n s en : ℕ),
      l.length ≤ n → (∀ v ∈ e, l.length < v ∧ v ≤ n) →
      scanGo l bc e = some (s, en) → s < en ∧ en ≤ n := by
  intro l
  induction l with
  | nil =>
    intro bc e n s en _ _ h
    simp [scanGo] at h
  | cons c rest ih =>
    intro bc e n s en hlen hinv h
    rw [List.length_cons] at hlen
    have hlen2 : rest.length ≤ n := by omega
    simp only [scanGo] at h
    by_cases h1 : c = '\x7d'
    · rw [if_pos h1] at h
      refine ih (bc + 1) _ n s en hlen2 ?_ h
      intro v hv
      by_cases hbc : bc = 0
      · rw [if_pos hbc] at hv
        simp only [Option.mem_def, Option.some.injEq] at hv
        omega
      · rw [if_neg hbc] at hv
        have := hinv v hv
        rw [List.length_cons] at this
        omega
    · rw [if_neg h1] at h
      by_cases h2 : c = '\x7b'
      · rw [if_pos h2] at h
        by_cases h3 : bc - 1 = 0
        · rw [if_pos h3] at h
          cases he : e with
          | none =>
            rw [he] at h
            exact ih (bc - 1) none n s en hlen2 (by simp) h
          | some en2 =>
            rw [he] at h
            have hpair := Option.some.inj h
            have hs : rest.length = s := congrArg Prod.fst hpair
            have hen : en2 = en := congrArg Prod.snd hpair
            have hv := hinv en2 (by rw [he]; rfl)
            rw [List.length_cons] at hv
            omega
        · rw [if_neg h3] at h
          refine ih (bc - 1) e n s en hlen2 ?_ h
          intro v hv
          have := hinv v hv
          rw [List.length_cons] at this
          omega
      · rw [if_neg h2] at h
        refine ih bc e n s en hlen2 ?_ h
        intro v hv
        have := hinv v hv
        rw [List.length_cons] at this
        omega

theorem scanLastJson_append_braceFree (r t : List Char)
    (ht : ∀ c ∈ t, c ≠ '\x7b' ∧ c ≠ '\x7d') :
    scanLastJson (r ++ t) = scanLastJson r := by
  rw [scanLastJson, scanLastJson, List.reverse_append]
  exact scanGo_braceFree t.reverse
    (fun c hc => ht c (List.mem_reverse.mp hc)) r.reverse 0 none

end Maker

/-- C9 counterexample: the claim states strict_json_parser red-flags
exactly when no complete top-level JSON object is found in the string, and
that trailing commentary appended after the payload does not change the
result.  The backward scan counts every brace, including braces inside
trailing commentary: on a response holding a complete top-level object
followed by commentary with one stray close brace, the scan pairs the
stray brace into the count, never sees the count reach zero with an end
marker, and the function red-flags (raises RedFlagError) for every
validator — even the one accepting everything — although a complete
top-level object is present in the string. -/
theorem C9_trailing_brace_red_flags :
    Maker.hasTopLevelObject Maker.c9Resp = true
    ∧ Maker.scanLastJson Maker.c9Resp = none
    ∧ Maker.strictJsonParser (fun l => some l) Maker.c9Resp = none := by
  exact ⟨by decide, by decide, by decide⟩

/-- C9 amended: strict_json_parser extracts the last brace-balanced span
found by counting all braces from the end and red-flags when the scan finds
no span or when the extracted slice fails JSON parsing or schema
validation; appending brace-free trailing commentary never changes the
result (the scan walks over it without touching its state, and the
extracted slice, lying inside the original payload, is unchanged). -/
theorem C9_braceFree_commentary_invariant {J : Type}
    (validate : List Char → Option J) (r t : List Char)
    (ht : ∀ c ∈ t, c ≠ '\x7b' ∧ c ≠ '\x7d') :
    Maker.strictJsonParser validate (r ++ t)
      = Maker.strictJsonParser validate r := by
  rw [Maker.strictJsonParser, Maker.strictJsonParser,
    Maker.scanLastJson_append_braceFree r t ht]
  cases hscan : Maker.scanLastJson r with
  | none => rfl
  | some p =>
    obtain ⟨s, en⟩ := p
    dsimp only
    have hb := Maker.scanGo_span_bounds r.reverse 0 none r.length s en
      (by simp) (by simp) hscan
    have hdrop : (r ++ t).drop s = r.drop s ++ t := by
      rw [List.drop_append_eq_append_drop, Nat.sub_eq_zero_of_le (by omega),
        List.drop_zero]
    have hz : (en - s) - (List.drop s r).length = 0 := by
      rw [List.length_drop]
      omega
    rw [hdrop, List.take_append_eq_append_take, hz, List.take_zero,
      List.append_nil]

/-- C9 witness: the commentary " ok" is brace-free (discharging the
hypothesis), and by the theorem the parse of payload-plus-commentary
equals the parse of the bare payload. -/
theorem C9_braceFree_commentary_invariant_witness :
    (∀ c ∈ (" ok" : String).data, c ≠ '\x7b' ∧ c ≠ '\x7d')
    ∧ Maker.strictJsonParser (fun l => some l)
        (("\x7b\x22v\x22: 1\x7d" : String).data ++ (" ok" : String).data)
      = Maker.strictJsonParser (fun l => some l)
          ("\x7b\x22v\x22: 1\x7d" : String).data :=
  ⟨by decide,
   C9_braceFree_commentary_invariant (fun l => some l)
     ("\x7b\x22v\x22: 1\x7d" : String).data (" ok" : String).data
     (by decide)⟩
